import Mathlib

/-!
# Verification of the genome-toolkit text-processing core

Shallow embedding of the client-side bioinformatics routines of this
repository (FASTA/FASTQ parsers, variant CSV parser, sequence statistics,
sliding-window GC calculator, motif search, variant comparator) together
with proofs of the specified properties.

Modelling conventions:
* JavaScript strings are `List Char`; per-character operations
  (`toUpperCase`, `trim`) are modelled character-wise (ASCII behaviour).
* JavaScript numbers holding counts/positions are `Nat`/`Int`; the
  2-decimal rounding `Math.round(x * 100) / 100` is modelled over `ℚ`
  with `Math.round` as `⌊x + 1/2⌋` (round half toward positive infinity),
  i.e. the floating-point arithmetic is replaced by exact rational
  arithmetic.
* Fallible parsers return `Except String _` where the source `throw`s;
  the exact error-message strings are immaterial placeholders.
* JavaScript `Map` built from a list of key/value pairs keeps the
  position of the first insertion of a key and the value of the last
  insertion; `Set` membership is list membership of the key list.
-/

set_option maxHeartbeats 1000000
set_option synthInstance.maxHeartbeats 2000

/-! ## String / line utilities shared by the parsers -/

/-- Whitespace class used by `String.prototype.trim` (ASCII part). -/
def jsWhitespace (c : Char) : Bool :=
  c == ' ' || c == '\t' || c == '\n' || c == '\r' || c == '\x0b' || c == '\x0c'

/-- Model of `s.trim()`: strip leading and trailing whitespace. -/
def trimLine (l : List Char) : List Char :=
  ((l.dropWhile jsWhitespace).reverse.dropWhile jsWhitespace).reverse

/-- Split a character list on a separator character (like `split` without
losing empty components). -/
def splitOnChar (sep : Char) : List Char → List (List Char)
  | [] => [[]]
  | c :: rest =>
    match splitOnChar sep rest with
    | [] => [[c]]
    | h :: t => if c == sep then [] :: h :: t else (c :: h) :: t

/-- Remove one trailing carriage return, as `split(/\r?\n/)` does to each
line. -/
def stripCR (l : List Char) : List Char :=
  if l.getLast? == some '\r' then l.dropLast else l

/-- Model of `text.split(/\r?\n/)`. -/
def splitLines (text : List Char) : List (List Char) :=
  (splitOnChar '\n' text).map stripCR

/-- Model of `s.startsWith(c)` for a single-character marker. -/
def startsWithChar (c : Char) (l : List Char) : Bool :=
  l.head? == some c

/-- Model of `Math.round`: round half toward positive infinity. -/
def jsRound (x : ℚ) : ℤ := ⌊x + 1/2⌋

/-- Model of `Math.round(x * 100) / 100`: round to 2 decimal places. -/
def round2 (x : ℚ) : ℚ := (jsRound (x * 100) : ℚ) / 100

/-! ## Data model (`types/index.ts`) -/

/-- The `type` discriminator of `SequenceData`. -/
inductive SeqFormat where
  | FASTA
  | FASTQ
deriving DecidableEq, Repr

/-- Model of `SequenceData` (the `id`/`fileName` display fields are omitted: they
never influence the computations under verification). -/
structure SequenceData where
  type : SeqFormat
  header : List Char
  sequence : List Char
  qualities : Option (List Int)
deriving DecidableEq, Repr

/-- Model of `baseCounts` record of `SequenceStats`. -/
structure BaseCounts where
  A : Nat
  T : Nat
  C : Nat
  G : Nat
  N : Nat
deriving DecidableEq, Repr

/-- Model of `SequenceStats`. -/
structure SequenceStats where
  length : Nat
  gcPercent : ℚ
  nPercent : ℚ
  baseCounts : BaseCounts
  meanQuality : Option ℚ
  perPositionQuality : Option (List Int)
deriving DecidableEq, Repr

/-! ## `services/statsCalculator.ts` -/

/-- One step of the `switch` statement counting a base. -/
def classifyBase (bc : BaseCounts) (c : Char) : BaseCounts :=
  if c = 'A' then { bc with A := bc.A + 1 }
  else if c = 'T' then { bc with T := bc.T + 1 }
  else if c = 'C' then { bc with C := bc.C + 1 }
  else if c = 'G' then { bc with G := bc.G + 1 }
  else { bc with N := bc.N + 1 }

/-- Model of `computeStats` from `services/statsCalculator.ts`. -/
def computeStats (data : SequenceData) : SequenceStats :=
  let seq := data.sequence
  let len := seq.length
  let bc := seq.foldl classifyBase ⟨0, 0, 0, 0, 0⟩
  let gcPercent : ℚ := if 0 < len then ((bc.G : ℚ) + bc.C) / len * 100 else 0
  let nPercent : ℚ := if 0 < len then (bc.N : ℚ) / len * 100 else 0
  let base : SequenceStats :=
    { length := len
      gcPercent := round2 gcPercent
      nPercent := round2 nPercent
      baseCounts := bc
      meanQuality := none
      perPositionQuality := none }
  match data.type, data.qualities with
  | .FASTQ, some qs =>
    if 0 < qs.length then
      { base with
        meanQuality := some (round2 ((qs.sum : ℚ) / qs.length))
        perPositionQuality := some qs }
    else base
  | _, _ => base

/-- Characters that are not exactly A, T, C or G (the `default` branch). -/
def notACGT (c : Char) : Bool :=
  !(c == 'A' || c == 'T' || c == 'C' || c == 'G')

/-! ## `services/gcCalculator.ts` -/

/-- Model of `isGC`: check if a base is G or C. -/
def isGC (c : Char) : Bool := c == 'G' || c == 'C'

/-- Number of G/C bases in a character list (the counting loops of the
source are per-window counts of this quantity). -/
def countGC (l : List Char) : Nat := (l.filter isGC).length

/-- Model of `GCWindow` chart record. -/
structure GCWindow where
  windowStart : Nat
  windowEnd : Nat
  gcPercent : ℚ
deriving DecidableEq, Repr

/-- Model of `Math.round((gcCount / windowSize) * 10000) / 100`. -/
def gcPercentOf (gcCount : ℤ) (w : ℕ) : ℚ :=
  ((jsRound ((gcCount : ℚ) / w * 10000)) : ℚ) / 100

/-- The sliding loop of `computeGCWindows`.  The source iterates
`start = 1 .. seq.length - windowSize`; here `p = start - 1`, so the base
leaving the window is `seq[start - 1] = seq[p]` and the base entering is
`seq[start + windowSize - 1] = seq[p + w]`.  `r` counts the remaining
iterations. -/
def gcSlide (seq : List Char) (w : ℕ) : ℤ → ℕ → ℕ → List GCWindow
  | _, _, 0 => []
  | gcCount, p, r + 1 =>
    let next := gcCount - (if isGC (seq.getD p ' ') then 1 else 0)
                        + (if isGC (seq.getD (p + w) ' ') then 1 else 0)
    { windowStart := p + 1, windowEnd := p + 1 + w, gcPercent := gcPercentOf next w }
      :: gcSlide seq w next (p + 1) r

/-- Model of `computeGCWindows` from `services/gcCalculator.ts` (`none` models the
two `throw`s on an invalid window size). -/
def computeGCWindows (sequence : List Char) (windowSize : ℕ) : Option (List GCWindow) :=
  if windowSize = 0 then none
  else if sequence.length < windowSize then none
  else
    let seq := sequence.map Char.toUpper
    let gc0 : ℤ := countGC (seq.take windowSize)
    some ({ windowStart := 0, windowEnd := windowSize, gcPercent := gcPercentOf gc0 windowSize }
      :: gcSlide seq windowSize gc0 0 (seq.length - windowSize))

/-- The naive O(n·w) per-window recomputation the spec demands for
comparison: window `i` covers `[i, i + w)` of the uppercased sequence and
its GC% is obtained by recounting that slice and applying the same
2-decimal rounding. -/
def naiveGCWindows (sequence : List Char) (windowSize : ℕ) : List GCWindow :=
  (List.range (sequence.length - windowSize + 1)).map fun i =>
    { windowStart := i, windowEnd := i + windowSize,
      gcPercent := gcPercentOf
        (countGC (((sequence.map Char.toUpper).drop i).take windowSize)) windowSize }

/-! ## Variant data model and `services/variantCompare.ts` -/

/-- Decimal digits of a natural number, with explicit recursion fuel
(`fuel > n` always suffices, see `natReprAux_fuel`). -/
def natReprAux : Nat → Nat → List Char
  | 0, _ => []
  | fuel + 1, n =>
    if n < 10 then [Nat.digitChar n]
    else natReprAux fuel (n / 10) ++ [Nat.digitChar (n % 10)]

/-- Decimal rendering of a natural number. -/
def natRepr (n : Nat) : List Char := natReprAux (n + 1) n

/-- Template-literal rendering of an integer, as in the `pos`
interpolation of the variant key. -/
def intRepr (i : Int) : List Char :=
  if i < 0 then '-' :: natRepr i.natAbs else natRepr i.natAbs

/-- Model of `Variant` record (section 6 of the types module). -/
structure Variant where
  chrom : List Char
  pos : Int
  ref : List Char
  alt : List Char
deriving DecidableEq, Repr

/-- Model of `variantKey`: the comparison key string `chrom:pos:ref:alt`. -/
def variantKey (v : Variant) : List Char :=
  v.chrom ++ ':' :: intRepr v.pos ++ ':' :: v.ref ++ ':' :: v.alt

/-- One `Map.set` step: JavaScript `Map` overwrites the value in place
when the key is already present and appends a new entry otherwise. -/
def insertEntry (m : List (List Char × Variant)) (k : List Char) (v : Variant) :
    List (List Char × Variant) :=
  if m.any (fun p => decide (p.1 = k)) then
    m.map (fun p => if p.1 = k then (k, v) else p)
  else m ++ [(k, v)]

/-- Model of `new Map(pairs)`: insert the key/value pairs in order. -/
def buildMap (l : List (List Char × Variant)) : List (List Char × Variant) :=
  l.foldl (fun m p => insertEntry m p.1 p.2) []

/-- The `summary` record of `VariantComparison`. -/
structure ComparisonSummary where
  sharedCount : Nat
  uniqueToACount : Nat
  uniqueToBCount : Nat
  totalA : Nat
  totalB : Nat
deriving DecidableEq, Repr

/-- Model of `VariantComparison`. -/
structure VariantComparison where
  shared : List Variant
  uniqueToA : List Variant
  uniqueToB : List Variant
  summary : ComparisonSummary
deriving DecidableEq, Repr

/-- Model of `compareVariants` from `services/variantCompare.ts`.  The `for`
loops over `mapA`/`mapB` that push each variant into one bucket according
to the key-set test are rendered as filters over the association lists in
iteration order. -/
def compareVariants (variantsA variantsB : List Variant) : VariantComparison :=
  let keysA := variantsA.map variantKey
  let keysB := variantsB.map variantKey
  let mapA := buildMap (variantsA.map fun v => (variantKey v, v))
  let mapB := buildMap (variantsB.map fun v => (variantKey v, v))
  let shared := (mapA.filter fun p => decide (p.1 ∈ keysB)).map Prod.snd
  let uniqueToA := (mapA.filter fun p => !decide (p.1 ∈ keysB)).map Prod.snd
  let uniqueToB := (mapB.filter fun p => !decide (p.1 ∈ keysA)).map Prod.snd
  { shared := shared
    uniqueToA := uniqueToA
    uniqueToB := uniqueToB
    summary :=
      { sharedCount := shared.length
        uniqueToACount := uniqueToA.length
        uniqueToBCount := uniqueToB.length
        totalA := variantsA.length
        totalB := variantsB.length } }

/-- Specification-side helper: the keys of a list in order of first
occurrence (the iteration order of a JavaScript `Map`/`Set` built from
it). -/
def dedupFirst : List (List Char) → List (List Char)
  | [] => []
  | k :: rest => k :: (dedupFirst rest).filter (fun k2 => decide (k2 ≠ k))

/-- Specification-side helper: the last variant of `l` whose key is `k`
(the value retained by last-wins deduplication). -/
def lastWith (l : List Variant) (k : List Char) : Option Variant :=
  (l.filter fun v => decide (variantKey v = k)).getLast?

/-- First `some` of two options. -/
def orDefault {α : Type} : Option α → Option α → Option α
  | some v, _ => some v
  | none, o => o

/-- Value bound to `k` in an association list (first entry wins, which is
the unique entry once keys are deduplicated). -/
def lookupKey (m : List (List Char × Variant)) (k : List Char) : Option Variant :=
  (m.find? fun p => decide (p.1 = k)).map Prod.snd

/-- Value of the last pair with key `k` in a raw pair list. -/
def lastLookup (l : List (List Char × Variant)) (k : List Char) : Option Variant :=
  ((l.filter fun p => decide (p.1 = k)).getLast?).map Prod.snd

/-! ## `services/motifSearch.ts` -/

/-- Model of `MotifMatch` record (1-based position plus surrounding context). -/
structure MotifMatch where
  position : Nat
  context : List Char
deriving DecidableEq, Repr

/-- Model of `seq.indexOf(motif, start)`: the first index `i ≥ start` at which
`motif` occurs in `seq` (`none` models the `-1` result). -/
def indexOfFrom (seq motif : List Char) (start : Nat) : Option Nat :=
  (List.range' start (seq.length + 1 - start)).find?
    (fun i => motif.isPrefixOf (seq.drop i))

/-- The scanning `while` loop of `findMotif`.  `fuel` bounds the number
of iterations; since `searchFrom` strictly increases each round,
`seq.length + 1` iterations always suffice (`findLoopF_spec`).  The
context slice `substring(max(0, index - 10), min(len, index + m + 10))`
is written with truncating `Nat` subtraction. -/
def findLoopF (sequence seq motif : List Char) : Nat → Nat → List MotifMatch
  | 0, _ => []
  | fuel + 1, searchFrom =>
    if (searchFrom : Int) ≤ (seq.length : Int) - motif.length then
      match indexOfFrom seq motif searchFrom with
      | none => []
      | some index =>
        { position := index + 1,
          context := (sequence.drop (index - 10)).take
            (min seq.length (index + motif.length + 10) - (index - 10)) }
          :: findLoopF sequence seq motif fuel (index + 1)
    else []

/-- Model of `findMotif` from `services/motifSearch.ts`. -/
def findMotif (sequence motif : List Char) : List MotifMatch :=
  if sequence.length = 0 ∨ motif.length = 0 then []
  else
    findLoopF sequence (sequence.map Char.toUpper) (motif.map Char.toUpper)
      ((sequence.map Char.toUpper).length + 1) 0

/-! ## `services/fastqParser.ts` -/

/-- The non-empty lines of a FASTQ upload:
`text.trim().split(/\r?\n/).filter(line => line.length > 0)`. -/
def fastqLines (text : List Char) : List (List Char) :=
  (splitLines (trimLine text)).filter (fun l => decide (l.length > 0))

/-- The 4-line-record `while` loop of `parseFastq`, returning the
concatenated uppercased sequence together with the concatenated decoded
Phred+33 qualities (`charCode - 33`). -/
def fastqLoop : List (List Char) → Except String (List Char × List Int)
  | [] => .ok ([], [])
  | hdr :: rest =>
    if !startsWithChar '@' hdr then
      .error "Invalid FASTQ format: expected header starting with at-sign."
    else
      match rest with
      | [] => .error "Unexpected end of file: missing sequence line."
      | seqRaw :: rest2 =>
        let seqLine := (trimLine seqRaw).map Char.toUpper
        match rest2 with
        | [] => .error "Invalid FASTQ format: expected plus separator."
        | sep :: rest3 =>
          if !startsWithChar '+' sep then
            .error "Invalid FASTQ format: expected plus separator."
          else
            match rest3 with
            | [] => .error "Unexpected end of file: missing quality line."
            | qualRaw :: rest4 =>
              let qualLine := trimLine qualRaw
              if qualLine.length ≠ seqLine.length then
                .error "Quality string length does not match sequence length."
              else
                match fastqLoop rest4 with
                | .error e => .error e
                | .ok (s, q) =>
                  .ok (seqLine ++ s,
                    qualLine.map (fun c => (c.toNat : Int) - 33) ++ q)

/-- Model of `parseFastq` from `services/fastqParser.ts`. -/
def parseFastq (text : List Char) : Except String SequenceData :=
  let lines := fastqLines text
  if lines.length < 4 then
    .error "Invalid FASTQ format: expected at least 4 lines."
  else if !startsWithChar '@' (lines.headD []) then
    .error "Invalid FASTQ format: the first line must start with at-sign."
  else
    let header := trimLine ((lines.headD []).drop 1)
    match fastqLoop lines with
    | .error e => .error e
    | .ok (sequence, qualities) =>
      if sequence.length = 0 then .error "No sequence data found in the FASTQ file."
      else .ok ⟨.FASTQ, header, sequence, some qualities⟩

/-- Specification-side helper: the trimmed quality lines (every fourth
line) of a FASTQ line list, concatenated. -/
def qualChars : List (List Char) → List Char
  | _ :: _ :: _ :: q :: rest => trimLine q ++ qualChars rest
  | _ => []

/-- Specification-side helper: the line list decomposes into 4-line
records with an at-sign header, a plus separator and a quality line of
the same trimmed length as the sequence line. -/
def wellFormedFastq : List (List Char) → Bool
  | [] => true
  | hdr :: s :: sep :: q :: rest =>
      startsWithChar '@' hdr && startsWithChar '+' sep
        && decide ((trimLine q).length = (trimLine s).length)
        && wellFormedFastq rest
  | _ => false

/-! ## `services/fastaParser.ts` -/

/-- The non-empty lines of a FASTA upload:
`text.trim().split(/\r?\n/).filter(line => line.length > 0)`. -/
def fastaLines (text : List Char) : List (List Char) :=
  (splitLines (trimLine text)).filter (fun l => decide (l.length > 0))

/-- The permitted IUPAC nucleotide codes (the `validBases` regex, applied
to the already-uppercased sequence). -/
def validBase (c : Char) : Bool :=
  "ATCGNRYSWKMBDHV".toList.contains c

/-- Model of `parseFasta` from `services/fastaParser.ts`.  The `for` loop that
pushes `lines[i].trim()` until a line starting with `>` is the
`takeWhile`/`map trimLine` below. -/
def parseFasta (text : List Char) : Except String SequenceData :=
  let lines := fastaLines text
  if lines.length = 0 then .error "File is empty."
  else if !startsWithChar '>' (lines.headD []) then
    .error "Invalid FASTA format: the first line must start with a header marker."
  else
    let header := trimLine ((lines.headD []).drop 1)
    let sequenceLines := ((lines.drop 1).takeWhile
      (fun l => !startsWithChar '>' l)).map trimLine
    let sequence := sequenceLines.flatten.map Char.toUpper
    if sequence.length = 0 then
      .error "No sequence data found after the header line."
    else if !sequence.all validBase then
      .error "Sequence contains invalid characters."
    else .ok ⟨.FASTA, header, sequence, none⟩

/-- The sequence value asserted by the original claim C8: the uppercased
concatenation of the raw non-empty lines strictly between the first
header and the next header line, without per-line trimming. -/
def claimedFastaSeq (text : List Char) : List Char :=
  ((((fastaLines text).drop 1).takeWhile
      (fun l => !startsWithChar '>' l)).flatten).map Char.toUpper

/-! ## `services/csvParser.ts` -/

/-- Value of the leading decimal-digit run, `none` when there is none. -/
def parseDigits (l : List Char) : Option Nat :=
  let ds := l.takeWhile Char.isDigit
  if ds.length = 0 then none
  else some (ds.foldl (fun acc c => acc * 10 + (c.toNat - 48)) 0)

/-- Model of `parseInt(s, 10)` on an already-trimmed string: optional sign
followed by the leading digit run; `none` models `NaN`. -/
def parseIntJS (l : List Char) : Option Int :=
  match l with
  | '-' :: rest => (parseDigits rest).map (fun n => -(n : Int))
  | '+' :: rest => (parseDigits rest).map (fun n => (n : Int))
  | _ => (parseDigits l).map (fun n => (n : Int))

/-- The line list of a variant CSV (no empty-line filtering before the
header check). -/
def csvLines (text : List Char) : List (List Char) :=
  splitLines (trimLine text)

/-- Locate the required columns `chrom`, `pos`, `ref`, `alt` in the
header row (split on commas, each cell trimmed and lowercased); `none`
models the missing-columns error. -/
def headerIdxs (headerLine : List Char) : Option (Nat × Nat × Nat × Nat) :=
  let headers := (splitOnChar ',' headerLine).map
    (fun h => (trimLine h).map Char.toLower)
  match headers.findIdx? (fun h => h == "chrom".toList),
        headers.findIdx? (fun h => h == "pos".toList),
        headers.findIdx? (fun h => h == "ref".toList),
        headers.findIdx? (fun h => h == "alt".toList) with
  | some ci, some pi, some ri, some ai => some (ci, pi, ri, ai)
  | _, _, _, _ => none

/-- Specification-side helper: the variant produced from a data row
(with `pos` the value of JavaScript `parseInt` on the `pos` cell). -/
def rowVariant (ci pi ri ai : Nat) (raw : List Char) : Variant :=
  let cols := (splitOnChar ',' (trimLine raw)).map trimLine
  { chrom := cols.getD ci []
    pos := (parseIntJS (cols.getD pi [])).getD 0
    ref := (cols.getD ri []).map Char.toUpper
    alt := (cols.getD ai []).map Char.toUpper }

/-- The data-row `for` loop of `parseVariantCSV`: skip rows that are
empty after trimming, fail when a row has too few columns or a `pos`
cell that `parseInt` cannot parse, otherwise accumulate the variants in
order. -/
def rowsLoop (ci pi ri ai : Nat) : List (List Char) → Except String (List Variant)
  | [] => .ok []
  | raw :: rest =>
    let line := trimLine raw
    if line.length = 0 then rowsLoop ci pi ri ai rest
    else
      let cols := (splitOnChar ',' line).map trimLine
      let maxIdx := max (max ci pi) (max ri ai)
      if cols.length ≤ maxIdx then .error "not enough columns."
      else
        match parseIntJS (cols.getD pi []) with
        | none => .error "pos value is not a valid number."
        | some n =>
          match rowsLoop ci pi ri ai rest with
          | .error e => .error e
          | .ok vs =>
            .ok (⟨cols.getD ci [], n,
              (cols.getD ri []).map Char.toUpper,
              (cols.getD ai []).map Char.toUpper⟩ :: vs)

/-- Model of `parseVariantCSV` from `services/csvParser.ts`. -/
def parseVariantCSV (text : List Char) : Except String (List Variant) :=
  let lines := csvLines text
  if lines.length < 2 then
    .error "CSV must have a header row and at least one data row."
  else
    match headerIdxs (lines.headD []) with
    | none => .error "Missing required columns."
    | some (ci, pi, ri, ai) =>
      match rowsLoop ci pi ri ai (lines.drop 1) with
      | .error e => .error e
      | .ok variants =>
        if variants.length = 0 then .error "No valid variant rows found."
        else .ok variants

/-! ## Proofs about `computeStats` -/

theorem beqc_false {a b : Char} (h : ¬ a = b) : (a == b) = false := by
  cases hab : a == b
  · rfl
  · exact absurd (eq_of_beq hab) h

theorem foldl_classifyBase (seq : List Char) : ∀ bc : BaseCounts,
    seq.foldl classifyBase bc =
      ⟨bc.A + seq.count 'A', bc.T + seq.count 'T', bc.C + seq.count 'C',
       bc.G + seq.count 'G', bc.N + (seq.filter notACGT).length⟩ := by
  induction seq with
  | nil => intro bc; simp
  | cons c rest ih =>
    intro bc
    simp only [List.foldl_cons, ih, List.count_cons, List.filter_cons]
    by_cases hA : c = 'A'
    · subst hA
      simp [classifyBase, notACGT, BaseCounts.mk.injEq]
      omega
    · by_cases hT : c = 'T'
      · subst hT
        simp [classifyBase, notACGT, BaseCounts.mk.injEq]
        omega
      · by_cases hC : c = 'C'
        · subst hC
          simp [classifyBase, notACGT, BaseCounts.mk.injEq]
          omega
        · by_cases hG : c = 'G'
          · subst hG
            simp [classifyBase, notACGT, BaseCounts.mk.injEq]
            omega
          · have hb : notACGT c = true := by
              simp [notACGT, beqc_false hA, beqc_false hT, beqc_false hC, beqc_false hG]
            have hA2 : ('A' == c) = false := beqc_false fun h => hA h.symm
            have hT2 : ('T' == c) = false := beqc_false fun h => hT h.symm
            have hC2 : ('C' == c) = false := beqc_false fun h => hC h.symm
            have hG2 : ('G' == c) = false := beqc_false fun h => hG h.symm
            simp [classifyBase, hA, hT, hC, hG, hb, hA2, hT2, hC2, hG2,
              BaseCounts.mk.injEq]
            omega

theorem count_bases_total (seq : List Char) :
    seq.count 'A' + seq.count 'T' + seq.count 'C' + seq.count 'G' +
      (seq.filter notACGT).length = seq.length := by
  induction seq with
  | nil => simp
  | cons c rest ih =>
    simp only [List.count_cons, List.filter_cons, List.length_cons]
    by_cases hA : c = 'A'
    · subst hA; simp [notACGT]; omega
    · by_cases hT : c = 'T'
      · subst hT; simp [notACGT]; omega
      · by_cases hC : c = 'C'
        · subst hC; simp [notACGT]; omega
        · by_cases hG : c = 'G'
          · subst hG; simp [notACGT]; omega
          · have hb : notACGT c = true := by
              simp [notACGT, beqc_false hA, beqc_false hT, beqc_false hC, beqc_false hG]
            have hA2 : ('A' == c) = false := beqc_false fun h => hA h.symm
            have hT2 : ('T' == c) = false := beqc_false fun h => hT h.symm
            have hC2 : ('C' == c) = false := beqc_false fun h => hC h.symm
            have hG2 : ('G' == c) = false := beqc_false fun h => hG h.symm
            simp [hb, hA, hT, hC, hG, hA2, hT2, hC2, hG2]
            omega

/-- Claim C2. `computeStats` sends every character of the sequence to exactly
one of the A/T/C/G/N buckets (everything that is not exactly `'A'`, `'T'`,
`'C'`, `'G'` lands in `N`), hence the five bucket counts sum to the
sequence length. -/
theorem computeStats_baseCounts_partition (data : SequenceData) :
    (computeStats data).baseCounts.A = data.sequence.count 'A' ∧
    (computeStats data).baseCounts.T = data.sequence.count 'T' ∧
    (computeStats data).baseCounts.C = data.sequence.count 'C' ∧
    (computeStats data).baseCounts.G = data.sequence.count 'G' ∧
    (computeStats data).baseCounts.N = (data.sequence.filter notACGT).length ∧
    (computeStats data).baseCounts.A + (computeStats data).baseCounts.T +
      (computeStats data).baseCounts.C + (computeStats data).baseCounts.G +
      (computeStats data).baseCounts.N = (computeStats data).length ∧
    (computeStats data).length = data.sequence.length := by
  have hfold := foldl_classifyBase data.sequence ⟨0, 0, 0, 0, 0⟩
  have htot := count_bases_total data.sequence
  have hbc : (computeStats data).baseCounts =
      data.sequence.foldl classifyBase ⟨0, 0, 0, 0, 0⟩ := by
    unfold computeStats
    rcases data.type with _ | _ <;> rcases data.qualities with _ | qs <;> simp
    split <;> rfl
  have hlen : (computeStats data).length = data.sequence.length := by
    unfold computeStats
    rcases data.type with _ | _ <;> rcases data.qualities with _ | qs <;> simp
    split <;> rfl
  rw [hbc, hfold] at *
  refine ⟨by simp, by simp, by simp, by simp, by simp, ?_, hlen⟩
  simp only [hlen]
  simpa using htot

theorem countGC_cons (c : Char) (l : List Char) :
    countGC (c :: l) = (if isGC c then 1 else 0) + countGC l := by
  by_cases h : isGC c <;> simp [countGC, List.filter_cons, h, Nat.add_comm]

theorem countGC_append (l₁ l₂ : List Char) :
    countGC (l₁ ++ l₂) = countGC l₁ + countGC l₂ := by
  simp [countGC, List.filter_append]

theorem countGC_slide (seq : List Char) (w p : ℕ) (hw : 0 < w)
    (hle : p + 1 + w ≤ seq.length) :
    countGC ((seq.drop (p + 1)).take w) + (if isGC (seq.getD p ' ') then 1 else 0)
      = countGC ((seq.drop p).take w) + (if isGC (seq.getD (p + w) ' ') then 1 else 0) := by
  obtain ⟨w', rfl⟩ : ∃ w', w = w' + 1 := ⟨w - 1, by omega⟩
  have hp : p < seq.length := by omega
  have hpw : p + 1 + w' < seq.length := by omega
  have hg1 : seq.getD p ' ' = seq[p] := List.getD_eq_getElem seq ' ' hp
  have hg2 : seq.getD (p + (w' + 1)) ' ' = seq[p + 1 + w'] := by
    have : p + (w' + 1) = p + 1 + w' := by omega
    rw [this]
    exact List.getD_eq_getElem seq ' ' hpw
  have hA : countGC ((seq.drop p).take (w' + 1))
      = (if isGC seq[p] then 1 else 0) + countGC ((seq.drop (p + 1)).take w') := by
    rw [List.drop_eq_getElem_cons hp, List.take_succ_cons, countGC_cons]
  have hB : countGC ((seq.drop (p + 1)).take (w' + 1))
      = countGC ((seq.drop (p + 1)).take w') + (if isGC seq[p + 1 + w'] then 1 else 0) := by
    have hidx : (seq.drop (p + 1))[w']? = some seq[p + 1 + w'] := by
      rw [List.getElem?_drop]
      exact List.getElem?_eq_getElem hpw
    rw [List.take_succ, hidx]
    simp only [Option.toList_some, countGC_append]
    by_cases h : isGC seq[p + 1 + w'] <;> simp [countGC, List.filter_cons, h]
  rw [hg1, hg2, hA, hB]
  omega

theorem gcSlide_spec (seq : List Char) (w : ℕ) (hw : 0 < w) :
    ∀ (r p : ℕ) (gc : ℤ), gc = (countGC ((seq.drop p).take w) : ℤ) →
      p + w + r ≤ seq.length →
      gcSlide seq w gc p r = (List.range r).map (fun j =>
        { windowStart := p + 1 + j, windowEnd := p + 1 + j + w,
          gcPercent := gcPercentOf (countGC ((seq.drop (p + 1 + j)).take w)) w }) := by
  intro r
  induction r with
  | zero => intro p gc _ _; simp [gcSlide]
  | succ r ih =>
    intro p gc hgc hle
    have hslide := countGC_slide seq w p hw (by omega)
    have hnext : gc - (if isGC (seq.getD p ' ') then 1 else 0)
        + (if isGC (seq.getD (p + w) ' ') then 1 else 0)
        = (countGC ((seq.drop (p + 1)).take w) : ℤ) := by
      subst hgc
      have hcast := congrArg (Nat.cast : ℕ → ℤ) hslide
      push_cast at hcast
      omega
    simp only [gcSlide]
    rw [hnext, ih (p + 1) _ rfl (by omega)]
    rw [List.range_succ_eq_map, List.map_cons, List.map_map]
    congr 1
    apply List.map_congr_left
    intro j _
    simp only [Function.comp_apply, Nat.succ_eq_add_one]
    have h3 : p + 1 + 1 + j = p + 1 + (j + 1) := by omega
    rw [h3]

/-- Claim C1. For `0 < w ≤ seq.length`, `computeGCWindows` returns exactly
`seq.length - w + 1` windows, the `i`-th having `windowStart = i`,
`windowEnd = i + w`, and a `gcPercent` equal to the naive recount of the
G/C bases of the uppercased window `[i, i + w)` under the same 2-decimal
rounding: the incremental algorithm coincides with the direct per-window
computation. -/
theorem computeGCWindows_eq_naive (sequence : List Char) (w : ℕ)
    (hw : 0 < w) (hlen : w ≤ sequence.length) :
    computeGCWindows sequence w = some (naiveGCWindows sequence w) ∧
    (naiveGCWindows sequence w).length = sequence.length - w + 1 ∧
    ∀ i (hi : i < (naiveGCWindows sequence w).length),
      ((naiveGCWindows sequence w).get ⟨i, hi⟩).windowStart = i ∧
      ((naiveGCWindows sequence w).get ⟨i, hi⟩).windowEnd = i + w ∧
      ((naiveGCWindows sequence w).get ⟨i, hi⟩).gcPercent =
        gcPercentOf (countGC (((sequence.map Char.toUpper).drop i).take w)) w := by
  refine ⟨?_, ?_, ?_⟩
  · have hw0 : ¬ w = 0 := by omega
    have hlt : ¬ sequence.length < w := by omega
    have hseqlen : (sequence.map Char.toUpper).length = sequence.length :=
      List.length_map _ _
    unfold computeGCWindows naiveGCWindows
    simp only [hw0, hlt, if_false]
    rw [hseqlen]
    rw [gcSlide_spec (sequence.map Char.toUpper) w hw (sequence.length - w) 0
        ((countGC ((sequence.map Char.toUpper).take w) : ℕ) : ℤ)
        (by rw [List.drop_zero]) (by simp only [List.length_map]; omega)]
    have hr : sequence.length - w + 1 = (sequence.length - w) + 1 := rfl
    rw [hr, List.range_succ_eq_map, List.map_cons, List.map_map]
    congr 2
    · simp
    · apply List.map_congr_left
      intro j _
      simp only [Function.comp_apply, Nat.succ_eq_add_one]
      have h3 : 0 + 1 + j = j + 1 := by omega
      rw [h3]
  · simp [naiveGCWindows]
  · intro i hi
    simp [naiveGCWindows] at hi ⊢

/-! ## Proofs about `variantKey` -/

theorem natReprAux_fuel (f1 : ℕ) : ∀ (f2 n : ℕ), n < f1 → n < f2 →
    natReprAux f1 n = natReprAux f2 n := by
  induction f1 with
  | zero => intro f2 n h _; omega
  | succ f1 ih =>
    intro f2 n h1 h2
    cases f2 with
    | zero => omega
    | succ f2 =>
      simp only [natReprAux]
      by_cases h : n < 10
      · simp [h]
      · simp only [h, if_false]
        have hdiv : n / 10 < n := Nat.div_lt_self (by omega) (by omega)
        rw [ih f2 (n / 10) (by omega) (by omega)]

theorem natRepr_eq (n : ℕ) :
    natRepr n = if n < 10 then [Nat.digitChar n]
      else natRepr (n / 10) ++ [Nat.digitChar (n % 10)] := by
  have hstep : natReprAux (n + 1) n = if n < 10 then [Nat.digitChar n]
      else natReprAux n (n / 10) ++ [Nat.digitChar (n % 10)] := rfl
  show natReprAux (n + 1) n = _
  rw [hstep]
  by_cases h : n < 10
  · simp [h]
  · simp only [h, if_false]
    have hdiv : n / 10 < n := Nat.div_lt_self (by omega) (by omega)
    have hfuel := natReprAux_fuel n (n / 10 + 1) (n / 10) (by omega) (by omega)
    rw [hfuel]
    rfl

theorem digitChar_range {n : ℕ} (h : n < 10) :
    48 ≤ (Nat.digitChar n).toNat ∧ (Nat.digitChar n).toNat ≤ 57 := by
  interval_cases n <;> decide

theorem digitChar_inj {m n : ℕ} (hm : m < 10) (hn : n < 10)
    (h : Nat.digitChar m = Nat.digitChar n) : m = n := by
  revert h
  interval_cases m <;> interval_cases n <;> decide

theorem natRepr_chars (n : ℕ) : ∀ c ∈ natRepr n,
    48 ≤ c.toNat ∧ c.toNat ≤ 57 := by
  induction n using Nat.strong_induction_on with
  | _ n ih =>
    rw [natRepr_eq]
    by_cases h : n < 10
    · simp only [h, if_true, List.mem_singleton]
      intro c hc
      subst hc
      exact digitChar_range h
    · simp only [h, if_false]
      intro c hc
      rcases List.mem_append.mp hc with hc | hc
      · exact ih (n / 10) (Nat.div_lt_self (by omega) (by omega)) c hc
      · rw [List.mem_singleton.mp hc]
        exact digitChar_range (Nat.mod_lt _ (by omega))

theorem natRepr_ne_nil (n : ℕ) : natRepr n ≠ [] := by
  rw [natRepr_eq]
  by_cases h : n < 10 <;> simp [h]

theorem natRepr_inj (m : ℕ) : ∀ n, natRepr m = natRepr n → m = n := by
  induction m using Nat.strong_induction_on with
  | _ m ih =>
    intro n h
    rw [natRepr_eq m, natRepr_eq n] at h
    by_cases hm : m < 10 <;> by_cases hn : n < 10
    · simp only [hm, hn, if_true, List.cons.injEq] at h
      exact digitChar_inj hm hn h.1
    · simp only [hm, hn, if_true, if_false] at h
      have hlen := congrArg List.length h
      have hpos := List.length_pos.mpr (natRepr_ne_nil (n / 10))
      simp only [List.length_singleton, List.length_append] at hlen
      omega
    · simp only [hm, hn, if_true, if_false] at h
      have hlen := congrArg List.length h
      have hpos := List.length_pos.mpr (natRepr_ne_nil (m / 10))
      simp only [List.length_singleton, List.length_append] at hlen
      omega
    · simp only [hm, hn, if_false] at h
      obtain ⟨h1, h2⟩ := List.append_inj' h (by simp)
      have hdiv := ih (m / 10) (Nat.div_lt_self (by omega) (by omega)) (n / 10) h1
      have hmod : m % 10 = n % 10 :=
        digitChar_inj (Nat.mod_lt _ (by omega)) (Nat.mod_lt _ (by omega))
          (List.cons.injEq .. |>.mp h2).1
      omega

theorem intRepr_no_colon (i : ℤ) : ':' ∉ intRepr i := by
  unfold intRepr
  intro hmem
  by_cases h : i < 0
  · simp only [h, if_true, List.mem_cons] at hmem
    rcases hmem with hmem | hmem
    · exact absurd hmem (by decide)
    · exact absurd (natRepr_chars i.natAbs ':' hmem) (by decide)
  · simp only [h, if_false] at hmem
    exact absurd (natRepr_chars i.natAbs ':' hmem) (by decide)

theorem intRepr_inj (i j : ℤ) (h : intRepr i = intRepr j) : i = j := by
  unfold intRepr at h
  by_cases hi : i < 0 <;> by_cases hj : j < 0
  · simp only [hi, hj, if_true, List.cons.injEq, true_and] at h
    have := natRepr_inj i.natAbs j.natAbs h
    omega
  · simp only [hi, hj, if_true, if_false] at h
    have hm : '-' ∈ natRepr j.natAbs := by rw [← h]; exact List.mem_cons_self _ _
    exact absurd (natRepr_chars j.natAbs '-' hm) (by decide)
  · simp only [hi, hj, if_true, if_false] at h
    have hm : '-' ∈ natRepr i.natAbs := by rw [h]; exact List.mem_cons_self _ _
    exact absurd (natRepr_chars i.natAbs '-' hm) (by decide)
  · simp only [hi, hj, if_false] at h
    have := natRepr_inj i.natAbs j.natAbs h
    omega

theorem append_colon_inj : ∀ (a c b d : List Char), ':' ∉ a → ':' ∉ c →
    a ++ ':' :: b = c ++ ':' :: d → a = c ∧ b = d := by
  intro a
  induction a with
  | nil =>
    intro c b d _ hc h
    cases c with
    | nil => simpa using h
    | cons c0 cs =>
      exfalso
      simp only [List.nil_append, List.cons_append, List.cons.injEq] at h
      exact hc (h.1 ▸ List.mem_cons_self _ _)
  | cons a0 as ih =>
    intro c b d ha hc h
    cases c with
    | nil =>
      exfalso
      simp only [List.nil_append, List.cons_append, List.cons.injEq] at h
      exact ha (h.1 ▸ List.mem_cons_self _ _)
    | cons c0 cs =>
      simp only [List.cons_append, List.cons.injEq] at h
      obtain ⟨rfl, h⟩ := h
      have := ih cs b d (fun hm => ha (List.mem_cons_of_mem _ hm))
        (fun hm => hc (List.mem_cons_of_mem _ hm)) h
      exact ⟨by rw [this.1], this.2⟩

/-- Claim C3 counterexample. The original claim fails: two different
`Variant` values (one with a colon inside `chrom`, one with a colon inside
`ref`) are mapped to the same comparison key, so key equality does not
imply field-wise equality. -/
theorem variantKey_collision :
    variantKey ⟨['c', ':', '1'], 2, ['A'], ['G']⟩
      = variantKey ⟨['c'], 1, ['2', ':', 'A'], ['G']⟩ ∧
    (⟨['c', ':', '1'], 2, ['A'], ['G']⟩ : Variant)
      ≠ ⟨['c'], 1, ['2', ':', 'A'], ['G']⟩ := by
  constructor
  · rfl
  · decide

/-- Claim C3 (amended)..  In `compareVariants` two variants are mapped to the
same comparison key if and only if all four fields `chrom`, `pos`, `ref`,
`alt` are respectively equal, provided neither variant's `chrom` or `ref`
contains the separator character `':'`; without that proviso the
flattened key is not injective (see `variantKey_collision`). -/
theorem variantKey_eq_iff (v₁ v₂ : Variant)
    (h1 : ':' ∉ v₁.chrom) (h2 : ':' ∉ v₁.ref)
    (h3 : ':' ∉ v₂.chrom) (h4 : ':' ∉ v₂.ref) :
    variantKey v₁ = variantKey v₂ ↔ v₁ = v₂ := by
  obtain ⟨c1, p1, r1, a1⟩ := v₁
  obtain ⟨c2, p2, r2, a2⟩ := v₂
  constructor
  · intro h
    unfold variantKey at h
    simp only [List.append_assoc, List.cons_append] at h
    obtain ⟨hc, h⟩ := append_colon_inj _ _ _ _ h1 h3 h
    obtain ⟨hp, h⟩ := append_colon_inj _ _ _ _
      (intRepr_no_colon _) (intRepr_no_colon _) h
    obtain ⟨hr, ha⟩ := append_colon_inj _ _ _ _ h2 h4 h
    simp only [Variant.mk.injEq]
    exact ⟨hc, intRepr_inj _ _ hp, hr, ha⟩
  · intro h
    rw [h]

/-- Witness for `variantKey_eq_iff` at concrete colon-free variants. -/
theorem variantKey_eq_iff_witness :
    (':' ∉ (['c'] : List Char)) ∧ (':' ∉ (['A'] : List Char)) ∧
    (variantKey ⟨['c'], 1, ['A'], ['G']⟩ = variantKey ⟨['c'], 2, ['A'], ['G']⟩
      ↔ (⟨['c'], 1, ['A'], ['G']⟩ : Variant) = ⟨['c'], 2, ['A'], ['G']⟩) :=
  ⟨by decide, by decide,
    variantKey_eq_iff ⟨['c'], 1, ['A'], ['G']⟩ ⟨['c'], 2, ['A'], ['G']⟩
      (by decide) (by decide) (by decide) (by decide)⟩

/-! ## Proofs about `compareVariants` -/

theorem orDefault_assoc {α : Type} (a b c : Option α) :
    orDefault (orDefault a b) c = orDefault a (orDefault b c) := by
  cases a <;> cases b <;> rfl

theorem orDefault_map {α β : Type} (f : α → β) (a b : Option α) :
    (orDefault a b).map f = orDefault (a.map f) (b.map f) := by
  cases a <;> rfl

theorem getLast?_cons {α : Type} (a : α) (l : List α) :
    (a :: l).getLast? = orDefault l.getLast? (some a) := by
  cases l with
  | nil => rfl
  | cons b t =>
    rw [List.getLast?_cons_cons]
    cases h : (b :: t).getLast? with
    | none =>
      exact absurd (List.getLast?_eq_none_iff.mp h) (by simp)
    | some x => rfl

theorem insertEntry_map_fst (m : List (List Char × Variant))
    (k : List Char) (v : Variant) :
    (insertEntry m k v).map Prod.fst =
      if k ∈ m.map Prod.fst then m.map Prod.fst else m.map Prod.fst ++ [k] := by
  unfold insertEntry
  by_cases hk : k ∈ m.map Prod.fst
  · have hany : (m.any fun p => decide (p.1 = k)) = true := by
      rw [List.any_eq_true]
      obtain ⟨p, hp, hpk⟩ := List.mem_map.mp hk
      exact ⟨p, hp, by simp [hpk]⟩
    simp only [hany, if_true, hk, List.map_map]
    apply List.map_congr_left
    intro p _
    by_cases hp : p.1 = k <;> simp [hp]
  · have hany : (m.any fun p => decide (p.1 = k)) = false := by
      refine Bool.eq_false_iff.mpr fun hco => ?_
      obtain ⟨p, hp, hpk⟩ := List.any_eq_true.mp hco
      exact hk (List.mem_map.mpr ⟨p, hp, of_decide_eq_true hpk⟩)
    simp only [hany, if_false, hk, List.map_append, Bool.false_eq_true, List.map_cons,
      List.map_nil]

theorem foldl_insert_keys (l : List (List Char × Variant)) :
    ∀ m : List (List Char × Variant),
    ((l.foldl (fun m p => insertEntry m p.1 p.2) m).map Prod.fst)
      = m.map Prod.fst
        ++ (dedupFirst (l.map Prod.fst)).filter
              (fun k => decide (k ∉ m.map Prod.fst)) := by
  induction l with
  | nil =>
    intro m
    simp only [List.foldl_nil, List.map_nil, dedupFirst, List.filter_nil, List.append_nil]
  | cons p rest ih =>
    intro m
    simp only [List.foldl_cons, List.map_cons, dedupFirst]
    rw [ih (insertEntry m p.1 p.2), insertEntry_map_fst]
    by_cases hk : p.1 ∈ m.map Prod.fst
    · rw [if_pos hk, List.filter_cons]
      have hc : decide (p.1 ∉ m.map Prod.fst) = false := by simp [hk]
      rw [hc]
      simp only [Bool.false_eq_true, if_false]
      congr 1
      rw [List.filter_filter]
      apply List.filter_congr
      intro k hkmem
      by_cases hkp : k = p.1
      · subst hkp
        simp [hk]
      · rw [show decide (k ≠ p.1) = true from decide_eq_true hkp, Bool.and_true]
    · rw [if_neg hk, List.filter_cons]
      have hc : decide (p.1 ∉ m.map Prod.fst) = true := by simp [hk]
      rw [hc]
      simp only [if_true]
      rw [List.append_assoc]
      congr 1
      rw [List.singleton_append]
      congr 1
      rw [List.filter_filter]
      apply List.filter_congr
      intro k hkmem
      by_cases h1 : k = p.1
      · subst h1
        have l1 : decide (p.1 ∉ m.map Prod.fst ++ [p.1]) = false :=
          decide_eq_false (not_not_intro (List.mem_append_right _ (List.mem_singleton_self _)))
        have l2 : decide (p.1 ≠ p.1) = false := decide_eq_false (not_not_intro rfl)
        rw [l1, l2, Bool.and_false]
      · have l2 : decide (k ≠ p.1) = true := decide_eq_true h1
        rw [l2, Bool.and_true]
        refine decide_eq_decide.mpr
          ⟨fun hnm hm => hnm (List.mem_append_left _ hm), fun hnm hm => ?_⟩
        exact (List.mem_append.mp hm).elim (fun h => hnm h)
          (fun hs => h1 (List.mem_singleton.mp hs))

theorem dedupFirst_nodup : ∀ l : List (List Char), (dedupFirst l).Nodup := by
  intro l
  induction l with
  | nil => simp [dedupFirst]
  | cons k rest ih =>
    simp only [dedupFirst, List.nodup_cons]
    constructor
    · intro hmem
      have := (List.mem_filter.mp hmem).2
      simp at this
    · exact ih.filter _

theorem mem_dedupFirst : ∀ (l : List (List Char)) (k : List Char),
    k ∈ dedupFirst l ↔ k ∈ l := by
  intro l
  induction l with
  | nil => simp [dedupFirst]
  | cons k0 rest ih =>
    intro k
    simp only [dedupFirst, List.mem_cons, List.mem_filter, ih, decide_eq_true_eq]
    by_cases hk : k = k0
    · simp [hk]
    · simp [hk]

theorem find?_overwrite (k : List Char) (v : Variant) (k' : List Char) :
    ∀ m : List (List Char × Variant),
    ((m.map fun p => if p.1 = k then (k, v) else p).find?
        fun p => decide (p.1 = k')).map Prod.snd
      = if k' = k then
          (if (m.any fun p => decide (p.1 = k)) = true then some v else none)
        else lookupKey m k' := by
  intro m
  induction m with
  | nil => by_cases h : k' = k <;> simp [lookupKey, h]
  | cons p m' ih =>
    simp only [List.map_cons, List.any_cons, List.find?_cons]
    by_cases hp : p.1 = k
    · rw [if_pos hp]
      by_cases hk : k' = k
      · have hd : decide ((k, v).1 = k') = true := decide_eq_true (by rw [hk])
        simp only [hd]
        rw [if_pos hk,
          if_pos (show (decide (p.1 = k) || m'.any fun p => decide (p.1 = k)) = true by
            rw [decide_eq_true hp, Bool.true_or])]
        rfl
      · have hd : decide ((k, v).1 = k') = false :=
          decide_eq_false (fun h => hk h.symm)
        simp only [hd]
        rw [ih, if_neg hk, if_neg hk]
        unfold lookupKey
        rw [List.find?_cons]
        have hd2 : decide (p.1 = k') = false :=
          decide_eq_false (fun h => hk (hp ▸ h).symm)
        simp only [hd2]
    · rw [if_neg hp]
      by_cases hk' : p.1 = k'
      · have hne : ¬ k' = k := fun h => hp (hk'.trans h)
        have hd : decide (p.1 = k') = true := decide_eq_true hk'
        simp only [hd]
        rw [if_neg hne]
        unfold lookupKey
        rw [List.find?_cons]
        simp only [hd]
      · have hd : decide (p.1 = k') = false := decide_eq_false hk'
        simp only [hd]
        rw [ih]
        simp only [decide_eq_false hp, Bool.false_or]
        by_cases hk : k' = k
        · rw [if_pos hk, if_pos hk]
        · rw [if_neg hk, if_neg hk]
          unfold lookupKey
          rw [List.find?_cons]
          simp only [hd]

theorem lookupKey_insertEntry (m : List (List Char × Variant))
    (k : List Char) (v : Variant) (k' : List Char) :
    lookupKey (insertEntry m k v) k' = if k' = k then some v else lookupKey m k' := by
  unfold insertEntry
  by_cases hany : (m.any fun p => decide (p.1 = k)) = true
  · rw [if_pos hany]
    have h := find?_overwrite k v k' m
    unfold lookupKey
    unfold lookupKey at h
    rw [h, if_pos hany]
  · rw [if_neg hany]
    unfold lookupKey
    rw [List.find?_append]
    by_cases hk : k' = k
    · subst hk
      have h1 : (m.find? fun p => decide (p.1 = k')) = none := by
        rw [List.find?_eq_none]
        intro p hp
        have := List.any_eq_false.mp (Bool.not_eq_true _ |>.mp hany) p hp
        simpa using this
      rw [h1]
      simp [Option.orElse]
    · have h2 : (([(k, v)] : List (List Char × Variant)).find?
          fun p => decide (p.1 = k')) = none := by
        rw [List.find?_eq_none]
        intro p hp
        rw [List.mem_singleton.mp hp]
        simpa using fun h => hk h.symm
      rw [if_neg hk]
      cases h3 : m.find? fun p => decide (p.1 = k') with
      | none => simp [h2, Option.orElse]
      | some q => simp [Option.orElse]

theorem lastLookup_cons (p : List Char × Variant)
    (l : List (List Char × Variant)) (k : List Char) :
    lastLookup (p :: l) k
      = if p.1 = k then orDefault (lastLookup l k) (some p.2)
        else lastLookup l k := by
  unfold lastLookup
  rw [List.filter_cons]
  by_cases hp : p.1 = k
  · simp only [decide_eq_true hp, if_true]
    rw [if_pos hp, getLast?_cons, orDefault_map]
    rfl
  · simp only [decide_eq_false hp, Bool.false_eq_true, if_false]
    rw [if_neg hp]

theorem foldl_insert_lookup (l : List (List Char × Variant)) :
    ∀ (m : List (List Char × Variant)) (k : List Char),
    lookupKey (l.foldl (fun m p => insertEntry m p.1 p.2) m) k
      = orDefault (lastLookup l k) (lookupKey m k) := by
  induction l with
  | nil => intro m k; simp [lastLookup, orDefault]
  | cons p rest ih =>
    intro m k
    simp only [List.foldl_cons]
    rw [ih, lookupKey_insertEntry, lastLookup_cons]
    by_cases hp : p.1 = k
    · rw [if_pos hp, if_pos hp.symm, orDefault_assoc]
      rfl
    · rw [if_neg hp, if_neg (fun h => hp h.symm)]

theorem filterMap_congr_keys {β : Type} (K : List (List Char))
    (f g : List Char → Option β) (h : ∀ k ∈ K, f k = g k) :
    K.filterMap f = K.filterMap g := by
  induction K with
  | nil => rfl
  | cons k K' ih =>
    simp only [List.filterMap_cons]
    rw [h k (List.mem_cons_self _ _), ih (fun a ha => h a (List.mem_cons_of_mem _ ha))]

theorem assoc_reconstruct : ∀ m : List (List Char × Variant),
    (m.map Prod.fst).Nodup →
    m = (m.map Prod.fst).filterMap (fun k => (lookupKey m k).map fun v => (k, v)) := by
  intro m
  induction m with
  | nil => intro _; rfl
  | cons p m' ih =>
    intro hnd
    simp only [List.map_cons, List.filterMap_cons]
    have h1 : lookupKey (p :: m') p.1 = some p.2 := by
      unfold lookupKey
      rw [List.find?_cons]
      simp only [decide_eq_true (rfl : p.1 = p.1)]
      rfl
    rw [h1]
    simp only [Option.map_some']
    have hnd' := (List.nodup_cons.mp hnd).2
    have hnmem := (List.nodup_cons.mp hnd).1
    have h2 : (m'.map Prod.fst).filterMap
        (fun k => (lookupKey (p :: m') k).map fun v => (k, v))
        = (m'.map Prod.fst).filterMap (fun k => (lookupKey m' k).map fun v => (k, v)) := by
      apply filterMap_congr_keys
      intro k hk
      have hne : ¬ p.1 = k := fun h => hnmem (h ▸ hk)
      unfold lookupKey
      rw [List.find?_cons, decide_eq_false hne]
    rw [h2, ← ih hnd']

theorem filterMap_key_bucket (K : List (List Char))
    (f : List Char → Option Variant) (q : List Char → Bool) :
    ((K.filterMap (fun k => (f k).map fun v => (k, v))).filter
        (fun p => q p.1)).map Prod.snd
      = (K.filter q).filterMap f := by
  induction K with
  | nil => rfl
  | cons k K' ih =>
    simp only [List.filterMap_cons, List.filter_cons]
    cases hf : f k with
    | none =>
      by_cases hq : q k
      · rw [if_pos hq]
        simp only [List.filterMap_cons, hf]
        exact ih
      · have : ¬ (q k = true) := by rw [Bool.not_eq_true]; exact Bool.not_eq_true _ |>.mp hq
        rw [if_neg this]
        exact ih
    | some v =>
      simp only [Option.map_some', List.filter_cons]
      by_cases hq : q k
      · rw [if_pos (show q (k, v).1 = true from hq), if_pos (show q k = true from hq)]
        simp only [List.map_cons, List.filterMap_cons, hf]
        rw [ih]
      · have h1 : ¬ (q (k, v).1 = true) := fun h => hq h
        have h2 : ¬ (q k = true) := fun h => hq h
        rw [if_neg h1, if_neg h2]
        exact ih

theorem getLast?_map_snd (l : List Variant) :
    ((l.map fun v => (variantKey v, v)).getLast?).map Prod.snd = l.getLast? := by
  induction l with
  | nil => rfl
  | cons v rest ih =>
    rw [List.map_cons, getLast?_cons, getLast?_cons, orDefault_map]
    rw [ih]
    rfl

theorem lastLookup_pairs (A : List Variant) (k : List Char) :
    lastLookup (A.map fun v => (variantKey v, v)) k = lastWith A k := by
  unfold lastLookup lastWith
  have hfil : (A.map fun v => (variantKey v, v)).filter (fun p => decide (p.1 = k))
      = (A.filter fun v => decide (variantKey v = k)).map fun v => (variantKey v, v) := by
    induction A with
    | nil => rfl
    | cons v rest ih =>
      simp only [List.map_cons, List.filter_cons]
      by_cases hv : variantKey v = k
      · rw [if_pos (decide_eq_true hv), if_pos (decide_eq_true hv), List.map_cons, ih]
      · rw [if_neg (by simp only [decide_eq_false hv]; exact Bool.false_ne_true),
          if_neg (by simp only [decide_eq_false hv]; exact Bool.false_ne_true), ih]
  rw [hfil, getLast?_map_snd]

theorem lastWith_isSome (A : List Variant) (k : List Char)
    (hk : k ∈ A.map variantKey) : ∃ v, lastWith A k = some v := by
  obtain ⟨v0, hv0, hkey⟩ := List.mem_map.mp hk
  have hmem : v0 ∈ A.filter fun v => decide (variantKey v = k) :=
    List.mem_filter.mpr ⟨hv0, decide_eq_true hkey⟩
  unfold lastWith
  cases h : (A.filter fun v => decide (variantKey v = k)).getLast? with
  | none =>
    rw [List.getLast?_eq_none_iff.mp h] at hmem
    exact absurd hmem (List.not_mem_nil _)
  | some v => exact ⟨v, rfl⟩

theorem buildMap_keys (A : List Variant) :
    (buildMap (A.map fun v => (variantKey v, v))).map Prod.fst
      = dedupFirst (A.map variantKey) := by
  unfold buildMap
  rw [foldl_insert_keys]
  simp only [List.map_nil, List.nil_append, List.map_map]
  have h1 : (Prod.fst ∘ fun v : Variant => (variantKey v, v)) = variantKey := rfl
  rw [h1]
  apply List.filter_eq_self.mpr
  intro k _
  exact decide_eq_true (List.not_mem_nil k)

theorem buildMap_lookup (A : List Variant) (k : List Char) :
    lookupKey (buildMap (A.map fun v => (variantKey v, v))) k = lastWith A k := by
  unfold buildMap
  rw [foldl_insert_lookup, lastLookup_pairs]
  cases h : lastWith A k with
  | none => rfl
  | some v => rfl

theorem bucket_spec (A : List Variant) (q : List Char → Bool) :
    ((buildMap (A.map fun v => (variantKey v, v))).filter
        (fun p => q p.1)).map Prod.snd
      = ((dedupFirst (A.map variantKey)).filter q).filterMap (lastWith A) := by
  have hnodup : ((buildMap (A.map fun v => (variantKey v, v))).map Prod.fst).Nodup := by
    rw [buildMap_keys]
    exact dedupFirst_nodup _
  conv_lhs => rw [assoc_reconstruct _ hnodup]
  rw [buildMap_keys]
  have hcongr : (dedupFirst (A.map variantKey)).filterMap
      (fun k => (lookupKey (buildMap (A.map fun v => (variantKey v, v))) k).map
        fun v => (k, v))
      = (dedupFirst (A.map variantKey)).filterMap
          (fun k => (lastWith A k).map fun v => (k, v)) := by
    apply filterMap_congr_keys
    intro k _
    rw [buildMap_lookup]
  rw [hcongr, filterMap_key_bucket]

theorem filter_length_partition {α : Type} (l : List α) (p : α → Bool) :
    (l.filter p).length + (l.filter fun a => !p a).length = l.length := by
  induction l with
  | nil => rfl
  | cons a l ih =>
    simp only [List.filter_cons]
    cases h : p a
    · simp only [Bool.not_false, Bool.false_eq_true, if_false, if_true, List.length_cons]
      omega
    · simp only [Bool.not_true, Bool.false_eq_true, if_false, if_true, List.length_cons]
      omega

theorem length_filterMap_of_some (K : List (List Char))
    (f : List Char → Option Variant)
    (h : ∀ k ∈ K, ∃ v, f k = some v) : (K.filterMap f).length = K.length := by
  induction K with
  | nil => rfl
  | cons k K' ih =>
    obtain ⟨v, hv⟩ := h k (List.mem_cons_self _ _)
    simp only [List.filterMap_cons, hv, List.length_cons]
    rw [ih (fun a ha => h a (List.mem_cons_of_mem _ ha))]

theorem dedupFirst_toFinset (l : List (List Char)) :
    (dedupFirst l).toFinset = l.toFinset :=
  Finset.ext fun k => by simp [List.mem_toFinset, mem_dedupFirst]

theorem compareVariants_shared_def (A B : List Variant) :
    (compareVariants A B).shared
      = ((buildMap (A.map fun v => (variantKey v, v))).filter
          fun p => decide (p.1 ∈ B.map variantKey)).map Prod.snd := rfl

theorem compareVariants_uniqueToA_def (A B : List Variant) :
    (compareVariants A B).uniqueToA
      = ((buildMap (A.map fun v => (variantKey v, v))).filter
          fun p => !decide (p.1 ∈ B.map variantKey)).map Prod.snd := rfl

theorem compareVariants_uniqueToB_def (A B : List Variant) :
    (compareVariants A B).uniqueToB
      = ((buildMap (B.map fun v => (variantKey v, v))).filter
          fun p => !decide (p.1 ∈ A.map variantKey)).map Prod.snd := rfl

/-- Claim C9. In the result of `compareVariants`, `shared` and `uniqueToA`
are ordered by the first occurrence of each key in input A (and
`uniqueToB` by first occurrence in B), while the `Variant` object
reported for a key that occurs several times is the last occurrence with
that key: first-occurrence ordering combined with last-wins
deduplication. -/
theorem compareVariants_order (A B : List Variant) :
    (compareVariants A B).shared
      = ((dedupFirst (A.map variantKey)).filter
          (fun k => decide (k ∈ B.map variantKey))).filterMap (lastWith A) ∧
    (compareVariants A B).uniqueToA
      = ((dedupFirst (A.map variantKey)).filter
          (fun k => !decide (k ∈ B.map variantKey))).filterMap (lastWith A) ∧
    (compareVariants A B).uniqueToB
      = ((dedupFirst (B.map variantKey)).filter
          (fun k => !decide (k ∈ A.map variantKey))).filterMap (lastWith B) := by
  refine ⟨?_, ?_, ?_⟩
  · rw [compareVariants_shared_def]
    exact bucket_spec A (fun k => decide (k ∈ B.map variantKey))
  · rw [compareVariants_uniqueToA_def]
    exact bucket_spec A (fun k => !decide (k ∈ B.map variantKey))
  · rw [compareVariants_uniqueToB_def]
    exact bucket_spec B (fun k => !decide (k ∈ A.map variantKey))

/-- Claim C4. For any two collections A and B,
`shared.length + uniqueToA.length` is the number of distinct keys of A,
`shared.length` is the number of distinct keys in the intersection of the
key sets of A and B, the `summary` counts equal the bucket lengths, and
`totalA`/`totalB` are the undeduplicated input lengths. -/
theorem compareVariants_counts (A B : List Variant) :
    (compareVariants A B).shared.length + (compareVariants A B).uniqueToA.length
        = (A.map variantKey).toFinset.card ∧
    (compareVariants A B).shared.length
        = ((A.map variantKey).toFinset ∩ (B.map variantKey).toFinset).card ∧
    (compareVariants A B).summary.sharedCount = (compareVariants A B).shared.length ∧
    (compareVariants A B).summary.uniqueToACount
        = (compareVariants A B).uniqueToA.length ∧
    (compareVariants A B).summary.uniqueToBCount
        = (compareVariants A B).uniqueToB.length ∧
    (compareVariants A B).summary.totalA = A.length ∧
    (compareVariants A B).summary.totalB = B.length := by
  have hsh : (compareVariants A B).shared
      = ((dedupFirst (A.map variantKey)).filter
          (fun k => decide (k ∈ B.map variantKey))).filterMap (lastWith A) := by
    rw [compareVariants_shared_def]
    exact bucket_spec A (fun k => decide (k ∈ B.map variantKey))
  have hua : (compareVariants A B).uniqueToA
      = ((dedupFirst (A.map variantKey)).filter
          (fun k => !decide (k ∈ B.map variantKey))).filterMap (lastWith A) := by
    rw [compareVariants_uniqueToA_def]
    exact bucket_spec A (fun k => !decide (k ∈ B.map variantKey))
  have hsome : ∀ (q : List Char → Bool) k,
      k ∈ (dedupFirst (A.map variantKey)).filter q → ∃ v, lastWith A k = some v := by
    intro q k hk
    exact lastWith_isSome A k ((mem_dedupFirst _ _).mp (List.mem_filter.mp hk).1)
  have hlen1 : (((dedupFirst (A.map variantKey)).filter
      (fun k => decide (k ∈ B.map variantKey))).filterMap (lastWith A)).length
      = ((dedupFirst (A.map variantKey)).filter
          (fun k => decide (k ∈ B.map variantKey))).length :=
    length_filterMap_of_some _ _ (hsome _)
  have hlen2 : (((dedupFirst (A.map variantKey)).filter
      (fun k => !decide (k ∈ B.map variantKey))).filterMap (lastWith A)).length
      = ((dedupFirst (A.map variantKey)).filter
          (fun k => !decide (k ∈ B.map variantKey))).length :=
    length_filterMap_of_some _ _ (hsome _)
  have hpart := filter_length_partition (dedupFirst (A.map variantKey))
    (fun k => decide (k ∈ B.map variantKey))
  have hDcard : (dedupFirst (A.map variantKey)).length
      = (A.map variantKey).toFinset.card := by
    rw [← dedupFirst_toFinset, List.toFinset_card_of_nodup (dedupFirst_nodup _)]
  have hshared_card : ((dedupFirst (A.map variantKey)).filter
      (fun k => decide (k ∈ B.map variantKey))).length
      = ((A.map variantKey).toFinset ∩ (B.map variantKey).toFinset).card := by
    have hnd : ((dedupFirst (A.map variantKey)).filter
        (fun k => decide (k ∈ B.map variantKey))).Nodup :=
      (dedupFirst_nodup _).filter _
    rw [← List.toFinset_card_of_nodup hnd]
    congr 1
    apply Finset.ext
    intro k
    simp [List.mem_toFinset, List.mem_filter, mem_dedupFirst, Finset.mem_inter]
  refine ⟨?_, ?_, rfl, rfl, rfl, rfl, rfl⟩
  · rw [hsh, hua, hlen1, hlen2, hpart, hDcard]
  · rw [hsh, hlen1, hshared_card]

/-- Witness for `computeGCWindows_eq_naive` at a concrete sequence and
window size. -/
theorem computeGCWindows_eq_naive_witness :
    0 < 2 ∧ 2 ≤ ("ATGC".toList).length ∧
    computeGCWindows "ATGC".toList 2 = some (naiveGCWindows "ATGC".toList 2) :=
  ⟨by decide, by decide,
    (computeGCWindows_eq_naive "ATGC".toList 2 (by decide) (by decide)).1⟩

/-! ## Proofs about `findMotif` -/

theorem find?_range'_some {p : Nat → Bool} : ∀ (n s i : Nat),
    (List.range' s n).find? p = some i →
    s ≤ i ∧ i < s + n ∧ p i = true ∧ ∀ j, s ≤ j → j < i → ¬ p j = true := by
  intro n
  induction n with
  | zero =>
    intro s i h
    simp [List.range'] at h
  | succ n ih =>
    intro s i h
    rw [List.range'_succ, List.find?_cons] at h
    cases hp : p s
    · simp only [hp] at h
      obtain ⟨h1, h2, h3, h4⟩ := ih (s + 1) i h
      refine ⟨by omega, by omega, h3, ?_⟩
      intro j hj1 hj2
      by_cases hjs : j = s
      · subst hjs
        simp [hp]
      · exact h4 j (by omega) hj2
    · simp only [hp, Option.some.injEq] at h
      subst h
      exact ⟨le_refl _, by omega, hp, fun j hj1 hj2 => absurd (lt_of_le_of_lt hj1 hj2) (lt_irrefl _)⟩

theorem findLoopF_succ_none (sequence seq motif : List Char)
    (fuel searchFrom : Nat)
    (hcond : (searchFrom : Int) ≤ (seq.length : Int) - motif.length)
    (hidx : indexOfFrom seq motif searchFrom = none) :
    findLoopF sequence seq motif (fuel + 1) searchFrom = [] := by
  simp only [findLoopF]
  rw [if_pos hcond, hidx]

theorem findLoopF_succ_some (sequence seq motif : List Char)
    (fuel searchFrom index : Nat)
    (hcond : (searchFrom : Int) ≤ (seq.length : Int) - motif.length)
    (hidx : indexOfFrom seq motif searchFrom = some index) :
    findLoopF sequence seq motif (fuel + 1) searchFrom
      = { position := index + 1,
          context := (sequence.drop (index - 10)).take
            (min seq.length (index + motif.length + 10) - (index - 10)) }
        :: findLoopF sequence seq motif fuel (index + 1) := by
  simp only [findLoopF]
  rw [if_pos hcond, hidx]

theorem findLoopF_spec (sequence seq motif : List Char) (hm : 0 < motif.length) :
    ∀ (fuel searchFrom : Nat), seq.length + 1 - searchFrom ≤ fuel →
    findLoopF sequence seq motif fuel searchFrom
      = ((List.range' searchFrom (seq.length + 1 - searchFrom)).filter
          (fun i => motif.isPrefixOf (seq.drop i))).map
          (fun i => { position := i + 1,
                      context := (sequence.drop (i - 10)).take
                        (min seq.length (i + motif.length + 10) - (i - 10)) }) := by
  intro fuel
  induction fuel with
  | zero =>
    intro searchFrom hfuel
    have h0 : seq.length + 1 - searchFrom = 0 := by omega
    rw [h0]
    rfl
  | succ fuel ih =>
    intro searchFrom hfuel
    by_cases hcond : (searchFrom : Int) ≤ (seq.length : Int) - motif.length
    · cases hidx : indexOfFrom seq motif searchFrom with
      | none =>
        have hnone := List.find?_eq_none.mp hidx
        rw [findLoopF_succ_none sequence seq motif fuel searchFrom hcond hidx,
          List.filter_eq_nil_iff.mpr hnone]
        rfl
      | some index =>
        rw [findLoopF_succ_some sequence seq motif fuel searchFrom index hcond hidx]
        obtain ⟨h1, h2, h3, h4⟩ := find?_range'_some _ _ _ hidx
        have hple : index + motif.length ≤ seq.length := by
          have hpre := List.isPrefixOf_iff_prefix.mp h3
          have hlen := hpre.length_le
          rw [List.length_drop] at hlen
          omega
        have hsplit : List.range' searchFrom (seq.length + 1 - searchFrom)
            = List.range' searchFrom (index - searchFrom)
              ++ List.range' index (seq.length + 1 - index) := by
          have harith1 : searchFrom + 1 * (index - searchFrom) = index := by omega
          have harith2 : (seq.length + 1 - index) + (index - searchFrom)
              = seq.length + 1 - searchFrom := by omega
          rw [← harith2, ← List.range'_append, harith1]
        rw [hsplit, List.filter_append]
        have hfilter1 : (List.range' searchFrom (index - searchFrom)).filter
            (fun i => motif.isPrefixOf (seq.drop i)) = [] := by
          apply List.filter_eq_nil_iff.mpr
          intro j hj
          have hjr := List.mem_range'_1.mp hj
          exact h4 j hjr.1 (by omega)
        rw [hfilter1, List.nil_append]
        have hc : List.range' index (seq.length + 1 - index)
            = index :: List.range' (index + 1) (seq.length - index) := by
          have harith : seq.length + 1 - index = (seq.length - index) + 1 := by omega
          rw [harith, List.range'_succ]
        rw [hc, List.filter_cons, if_pos h3, List.map_cons]
        congr 1
        rw [ih (index + 1) (by omega)]
        have harith : seq.length + 1 - (index + 1) = seq.length - index := by omega
        rw [harith]
    · rw [show findLoopF sequence seq motif (fuel + 1) searchFrom = [] by
        simp only [findLoopF]
        rw [if_neg hcond]]
      symm
      rw [List.map_eq_nil_iff]
      apply List.filter_eq_nil_iff.mpr
      intro j hj hpj
      have hjr := List.mem_range'_1.mp hj
      have hpre := List.isPrefixOf_iff_prefix.mp hpj
      have hlen := hpre.length_le
      rw [List.length_drop] at hlen
      omega

/-- Claim C5. `findMotif` returns exactly the overlapping case-insensitive
occurrences: the matches are, in increasing order, all indices `i` at
which the uppercased motif occurs in the uppercased sequence, each
reported with 1-based `position = i + 1` and `context` equal to the
original-case slice from `max(0, i - 10)` to
`min(length, i + motif.length + 10)`; `"AAA"`/`"AA"` yields positions
`[1, 2]`, and an empty sequence or motif yields `[]`. -/
theorem findMotif_spec :
    (∀ sequence motif : List Char, sequence ≠ [] → motif ≠ [] →
      findMotif sequence motif
        = ((List.range sequence.length).filter
            (fun i => (motif.map Char.toUpper).isPrefixOf
              ((sequence.map Char.toUpper).drop i))).map
            (fun i => { position := i + 1,
                        context := (sequence.drop (i - 10)).take
                          (min sequence.length (i + motif.length + 10) - (i - 10)) })) ∧
    (findMotif "AAA".toList "AA".toList).map MotifMatch.position = [1, 2] ∧
    (∀ motif, findMotif [] motif = []) ∧
    (∀ sequence, findMotif sequence [] = []) := by
  refine ⟨?_, by decide,
    fun motif => by
      rw [findMotif, if_pos (Or.inl (show ([] : List Char).length = 0 from rfl))],
    fun sequence => by
      rw [findMotif, if_pos (Or.inr (show ([] : List Char).length = 0 from rfl))]⟩
  intro sequence motif hs hm0
  have hm : 0 < (motif.map Char.toUpper).length := by
    rw [List.length_map]
    exact List.length_pos.mpr hm0
  unfold findMotif
  rw [if_neg (by
    rintro (h | h)
    · exact hs (List.length_eq_zero.mp h)
    · exact hm0 (List.length_eq_zero.mp h))]
  rw [findLoopF_spec sequence (sequence.map Char.toUpper) (motif.map Char.toUpper)
    hm ((sequence.map Char.toUpper).length + 1) 0 (by omega)]
  simp only [List.length_map, Nat.sub_zero]
  rw [← List.range_eq_range', List.range_succ, List.filter_append]
  have hm' : 0 < motif.length := List.length_pos.mpr hm0
  have hlast : (([sequence.length] : List Nat).filter
      (fun i => (motif.map Char.toUpper).isPrefixOf
        ((sequence.map Char.toUpper).drop i))) = [] := by
    apply List.filter_eq_nil_iff.mpr
    intro j hj hpj
    rw [List.mem_singleton.mp hj] at hpj
    have hpre := List.isPrefixOf_iff_prefix.mp hpj
    have hlen := hpre.length_le
    rw [List.length_drop, List.length_map, List.length_map] at hlen
    omega
  rw [hlast, List.append_nil]

/-! ## Proofs about `parseFastq` -/

theorem fastqLoop_spec : ∀ lines : List (List Char),
    (∀ s q, fastqLoop lines = .ok (s, q) →
      q = (qualChars lines).map (fun c => (c.toNat : Int) - 33) ∧
      q.length = s.length) ∧
    ((∃ r, fastqLoop lines = .ok r) ↔ wellFormedFastq lines = true)
  | [] => by
    constructor
    · intro s q h
      simp only [fastqLoop, Except.ok.injEq, Prod.mk.injEq] at h
      obtain ⟨hs, hq⟩ := h
      subst hs hq
      exact ⟨rfl, rfl⟩
    · exact ⟨fun _ => rfl, fun _ => ⟨([], []), rfl⟩⟩
  | [a] => by
    have herr : ∀ r, ¬ fastqLoop [a] = .ok r := by
      intro r h
      cases h1 : startsWithChar '@' a <;> simp [fastqLoop, h1] at h
    refine ⟨fun s q h => absurd h (herr _), ?_, ?_⟩
    · rintro ⟨r, hr⟩
      exact absurd hr (herr _)
    · intro hw
      rw [show wellFormedFastq [a] = false from rfl] at hw
      exact absurd hw Bool.false_ne_true
  | [a, b] => by
    have herr : ∀ r, ¬ fastqLoop [a, b] = .ok r := by
      intro r h
      cases h1 : startsWithChar '@' a <;> simp [fastqLoop, h1] at h
    refine ⟨fun s q h => absurd h (herr _), ?_, ?_⟩
    · rintro ⟨r, hr⟩
      exact absurd hr (herr _)
    · intro hw
      rw [show wellFormedFastq [a, b] = false from rfl] at hw
      exact absurd hw Bool.false_ne_true
  | [a, b, c] => by
    have herr : ∀ r, ¬ fastqLoop [a, b, c] = .ok r := by
      intro r h
      cases h1 : startsWithChar '@' a <;> cases h2 : startsWithChar '+' c <;>
        simp [fastqLoop, h1, h2] at h
    refine ⟨fun s q h => absurd h (herr _), ?_, ?_⟩
    · rintro ⟨r, hr⟩
      exact absurd hr (herr _)
    · intro hw
      rw [show wellFormedFastq [a, b, c] = false from rfl] at hw
      exact absurd hw Bool.false_ne_true
  | a :: b :: c :: d :: rest => by
    obtain ⟨ihA, ihB⟩ := fastqLoop_spec rest
    cases h1 : startsWithChar '@' a with
    | false =>
      refine ⟨fun s q h => by simp [fastqLoop, h1] at h, ?_, ?_⟩
      · rintro ⟨r, hr⟩
        simp [fastqLoop, h1] at hr
      · intro hw
        simp [wellFormedFastq, h1] at hw
    | true =>
      cases h2 : startsWithChar '+' c with
      | false =>
        refine ⟨fun s q h => by simp [fastqLoop, h1, h2] at h, ?_, ?_⟩
        · rintro ⟨r, hr⟩
          simp [fastqLoop, h1, h2] at hr
        · intro hw
          simp [wellFormedFastq, h1, h2] at hw
      | true =>
        by_cases h3 : (trimLine d).length = ((trimLine b).map Char.toUpper).length
        · have h3' : (trimLine d).length = (trimLine b).length := by
            rw [List.length_map] at h3
            exact h3
          cases hres : fastqLoop rest with
          | error e =>
            refine ⟨fun s q h => by simp [fastqLoop, h1, h2, h3, hres] at h, ?_, ?_⟩
            · rintro ⟨r, hr⟩
              simp [fastqLoop, h1, h2, h3, hres] at hr
            · intro hw
              simp only [wellFormedFastq, h1, h2, Bool.true_and, Bool.and_eq_true,
                decide_eq_true_eq] at hw
              obtain ⟨r, hr⟩ := ihB.mpr hw.2
              rw [hres] at hr
              exact absurd hr (by simp)
          | ok pair =>
            obtain ⟨s', q'⟩ := pair
            obtain ⟨hq', hlen'⟩ := ihA s' q' hres
            refine ⟨?_, ?_, ?_⟩
            · intro s q h
              simp only [fastqLoop, h1, h2, h3, hres, Bool.not_true, Bool.false_eq_true,
                if_false, ne_eq, not_true_eq_false, ite_false, not_false_eq_true,
                ite_true, Except.ok.injEq, Prod.mk.injEq] at h
              obtain ⟨hs, hq⟩ := h
              constructor
              · rw [← hq, hq']
                rw [show qualChars (a :: b :: c :: d :: rest)
                    = trimLine d ++ qualChars rest from rfl]
                rw [List.map_append]
              · rw [← hq, ← hs]
                rw [List.length_append, List.length_append, List.length_map,
                  List.length_map, hlen', h3']
            · intro _
              have hwr := ihB.mp ⟨(s', q'), hres⟩
              simp only [wellFormedFastq, h1, h2, hwr, Bool.true_and, Bool.and_true,
                decide_eq_true_eq]
              exact h3'
            · intro _
              refine ⟨((trimLine b).map Char.toUpper ++ s',
                (trimLine d).map (fun c => (c.toNat : Int) - 33) ++ q'), ?_⟩
              simp [fastqLoop, h1, h2, h3, hres]
        · have h3' : ¬ (trimLine d).length = (trimLine b).length := by
            rw [List.length_map] at h3
            exact h3
          refine ⟨fun s q h => by simp [fastqLoop, h1, h2, h3, h3'] at h, ?_, ?_⟩
          · rintro ⟨r, hr⟩
            simp [fastqLoop, h1, h2, h3, h3'] at hr
          · intro hw
            simp only [wellFormedFastq, h1, h2, Bool.true_and, Bool.and_eq_true,
              decide_eq_true_eq] at hw
            exact absurd hw.1 h3'

/-- Claim C6. Whenever `parseFastq` succeeds the returned record carries
qualities of the same length as the sequence, each equal to the ASCII
code of the corresponding quality character minus 33; and the record
loop succeeds exactly on line lists that decompose into 4-line records
with header marker, separator and a quality line matching the sequence
line's length — any missing marker, truncated record or quality/sequence
length mismatch makes it fail. -/
theorem parseFastq_spec :
    (∀ text d, parseFastq text = .ok d →
      ∃ qs, d.qualities = some qs ∧ qs.length = d.sequence.length ∧
        qs = (qualChars (fastqLines text)).map (fun c => (c.toNat : Int) - 33)) ∧
    (∀ lines : List (List Char),
      (∃ r, fastqLoop lines = .ok r) ↔ wellFormedFastq lines = true) := by
  refine ⟨?_, fun lines => (fastqLoop_spec lines).2⟩
  intro text d h
  unfold parseFastq at h
  by_cases hlen : (fastqLines text).length < 4
  · rw [if_pos hlen] at h
    exact absurd h (by simp)
  · rw [if_neg hlen] at h
    cases hhd : startsWithChar '@' ((fastqLines text).headD []) with
    | false =>
      have hcond : (!startsWithChar '@' ((fastqLines text).headD [])) = true := by
        rw [hhd]
        rfl
      rw [if_pos hcond] at h
      exact absurd h (by simp)
    | true =>
      have hcond : ¬ ((!startsWithChar '@' ((fastqLines text).headD [])) = true) := by
        rw [hhd]
        simp
      rw [if_neg hcond] at h
      cases hloop : fastqLoop (fastqLines text) with
      | error e =>
        simp only [hloop] at h
        exact absurd h (by simp)
      | ok pair =>
        obtain ⟨s, q⟩ := pair
        simp only [hloop] at h
        by_cases hs0 : s.length = 0
        · rw [if_pos hs0] at h
          exact absurd h (by simp)
        · rw [if_neg hs0] at h
          obtain ⟨hq, hlen'⟩ := (fastqLoop_spec (fastqLines text)).1 s q hloop
          have hd : d = ⟨.FASTQ, trimLine (((fastqLines text).headD []).drop 1),
              s, some q⟩ := by
            cases h
            rfl
          subst hd
          exact ⟨q, rfl, hlen', hq⟩

/-- Witness for `parseFastq_spec` on a concrete well-formed FASTQ file. -/
theorem parseFastq_spec_witness :
    ∃ qs, (⟨.FASTQ, ['r'], "ACGT".toList, some [40, 40, 40, 40]⟩
        : SequenceData).qualities = some qs ∧
      qs.length = "ACGT".toList.length ∧
      qs = (qualChars (fastqLines "@r\nACGT\n+\nIIII".toList)).map
        (fun c => (c.toNat : Int) - 33) :=
  parseFastq_spec.1 "@r\nACGT\n+\nIIII".toList
    ⟨.FASTQ, ['r'], "ACGT".toList, some [40, 40, 40, 40]⟩ rfl

/-- Claim C10. `parseFastq` performs no range validation on quality
characters: a quality character with code below 33 still parses, its
entry is negative, and such values flow unrejected into `computeStats`'s
`meanQuality` and `perPositionQuality`. -/
theorem parseFastq_no_quality_validation :
    (∀ lines s q, fastqLoop lines = .ok (s, q) →
      ∀ c ∈ qualChars lines, c.toNat < 33 →
        ((c.toNat : Int) - 33) < 0 ∧ ((c.toNat : Int) - 33) ∈ q) ∧
    (∀ d qs, d.type = .FASTQ → d.qualities = some qs → 0 < qs.length →
      (computeStats d).perPositionQuality = some qs ∧
      (computeStats d).meanQuality = some (round2 ((qs.sum : ℚ) / qs.length))) ∧
    (parseFastq ('@' :: 'r' :: '\n' :: 'A' :: '\n' :: '+' :: '\n' :: '\x01' :: [])
      = .ok ⟨.FASTQ, ['r'], ['A'], some [-32]⟩) := by
  refine ⟨?_, ?_, rfl⟩
  · intro lines s q hok c hc hlt
    obtain ⟨hq, _⟩ := (fastqLoop_spec lines).1 s q hok
    refine ⟨by omega, ?_⟩
    rw [hq]
    exact List.mem_map.mpr ⟨c, hc, rfl⟩
  · intro d qs hty hqs hpos
    obtain ⟨ty, hd, sq, qu⟩ := d
    simp only at hty hqs
    subst hty
    subst hqs
    unfold computeStats
    simp only [if_pos hpos]
    exact ⟨trivial, trivial⟩

/-- Witness for `parseFastq_no_quality_validation` at a concrete record
holding a negative quality value. -/
theorem parseFastq_no_quality_validation_witness :
    (computeStats ⟨.FASTQ, ['r'], ['A'], some [-32]⟩).perPositionQuality
        = some [-32] ∧
    (computeStats ⟨.FASTQ, ['r'], ['A'], some [-32]⟩).meanQuality
        = some (round2 (((([-32] : List Int).sum : ℚ)) / ([-32] : List Int).length)) :=
  parseFastq_no_quality_validation.2.1 ⟨.FASTQ, ['r'], ['A'], some [-32]⟩
    [-32] rfl rfl (by decide)

/-! ## Proofs about `parseFasta` -/

/-- Claim C8 counterexample. On the input `">h\nAT \nCG"` (a trailing
space inside the second line) `parseFasta` succeeds with sequence
`"ATCG"`, while the uppercased concatenation of the raw non-empty lines
between the header and end of input is `"AT CG"`: the original claim's
predicted value disagrees with the parser. -/
theorem parseFasta_claim_counterexample :
    parseFasta ">h\nAT \nCG".toList
      = .ok ⟨.FASTA, ['h'], "ATCG".toList, none⟩ ∧
    claimedFastaSeq ">h\nAT \nCG".toList = "AT CG".toList ∧
    "AT CG".toList ≠ "ATCG".toList :=
  ⟨rfl, rfl, by decide⟩

/-- Claim C8 (amended)..  For every input on which `parseFasta` succeeds,
the returned sequence is the uppercased concatenation of the
*per-line-trimmed* non-empty lines strictly between the first header
line and the next line starting with `'>'` (or the end of input); in
particular all lines at or after a second header contribute nothing. -/
theorem parseFasta_sequence (text : List Char) (d : SequenceData)
    (h : parseFasta text = .ok d) :
    d.sequence = (((((fastaLines text).drop 1).takeWhile
        (fun l => !startsWithChar '>' l)).map trimLine).flatten).map
        Char.toUpper := by
  unfold parseFasta at h
  by_cases h0 : (fastaLines text).length = 0
  · rw [if_pos h0] at h
    exact absurd h (by simp)
  · rw [if_neg h0] at h
    cases hhd : startsWithChar '>' ((fastaLines text).headD []) with
    | false =>
      have hcond : (!startsWithChar '>' ((fastaLines text).headD [])) = true := by
        rw [hhd]
        rfl
      rw [if_pos hcond] at h
      exact absurd h (by simp)
    | true =>
      have hcond : ¬ ((!startsWithChar '>' ((fastaLines text).headD [])) = true) := by
        rw [hhd]
        simp
      rw [if_neg hcond] at h
      by_cases hs0 : ((((fastaLines text).drop 1).takeWhile
          (fun l => !startsWithChar '>' l)).map trimLine
          |>.flatten.map Char.toUpper).length = 0
      · rw [if_pos hs0] at h
        exact absurd h (by simp)
      · rw [if_neg hs0] at h
        by_cases hv : (!((((fastaLines text).drop 1).takeWhile
            (fun l => !startsWithChar '>' l)).map trimLine
            |>.flatten.map Char.toUpper).all validBase) = true
        · rw [if_pos hv] at h
          exact absurd h (by simp)
        · rw [if_neg hv] at h
          cases h
          rfl

/-- Witness for `parseFasta_sequence` at a concrete FASTA input. -/
theorem parseFasta_sequence_witness :
    (⟨.FASTA, ['h'], "ATCG".toList, none⟩ : SequenceData).sequence
      = (((((fastaLines ">h\nATCG".toList).drop 1).takeWhile
          (fun l => !startsWithChar '>' l)).map trimLine).flatten).map
          Char.toUpper :=
  parseFasta_sequence ">h\nATCG".toList ⟨.FASTA, ['h'], "ATCG".toList, none⟩ rfl

/-! ## Proofs about `parseVariantCSV` -/

theorem rowsLoop_spec (ci pi ri ai : Nat) : ∀ (rows : List (List Char)) vs,
    rowsLoop ci pi ri ai rows = .ok vs →
      (∀ raw ∈ rows, (trimLine raw).length ≠ 0 →
        ∃ n, parseIntJS (((splitOnChar ',' (trimLine raw)).map trimLine).getD pi [])
          = some n) ∧
      vs = (rows.filter fun raw => decide ((trimLine raw).length ≠ 0)).map
        (rowVariant ci pi ri ai) := by
  intro rows
  induction rows with
  | nil =>
    intro vs h
    simp only [rowsLoop, Except.ok.injEq] at h
    subst h
    exact ⟨fun raw hmem => absurd hmem (List.not_mem_nil _), rfl⟩
  | cons raw rest ih =>
    intro vs h
    by_cases hempty : (trimLine raw).length = 0
    · rw [show rowsLoop ci pi ri ai (raw :: rest) = rowsLoop ci pi ri ai rest by
        simp only [rowsLoop, if_pos hempty]] at h
      obtain ⟨ih1, ih2⟩ := ih vs h
      refine ⟨?_, ?_⟩
      · intro r hr hne
        rcases List.mem_cons.mp hr with hr | hr
        · subst hr
          exact absurd hempty hne
        · exact ih1 r hr hne
      · rw [List.filter_cons,
          if_neg (by simp only [decide_eq_true_eq]; exact fun hc => hc hempty)]
        exact ih2
    · rw [show rowsLoop ci pi ri ai (raw :: rest)
          = (if ((splitOnChar ',' (trimLine raw)).map trimLine).length
                ≤ max (max ci pi) (max ri ai) then
              .error "not enough columns."
            else
              match parseIntJS ((((splitOnChar ',' (trimLine raw)).map
                  trimLine)).getD pi []) with
              | none => .error "pos value is not a valid number."
              | some n =>
                match rowsLoop ci pi ri ai rest with
                | .error e => .error e
                | .ok vs =>
                  .ok (⟨(((splitOnChar ',' (trimLine raw)).map trimLine)).getD ci [],
                    n,
                    ((((splitOnChar ',' (trimLine raw)).map trimLine)).getD ri
                      []).map Char.toUpper,
                    ((((splitOnChar ',' (trimLine raw)).map trimLine)).getD ai
                      []).map Char.toUpper⟩ :: vs)) by
        simp only [rowsLoop, if_neg hempty]] at h
      by_cases hcols : ((splitOnChar ',' (trimLine raw)).map trimLine).length
          ≤ max (max ci pi) (max ri ai)
      · rw [if_pos hcols] at h
        exact absurd h (by simp)
      · rw [if_neg hcols] at h
        cases hint : parseIntJS ((((splitOnChar ',' (trimLine raw)).map
            trimLine)).getD pi []) with
        | none =>
          simp only [hint] at h
          exact absurd h (by simp)
        | some n =>
          simp only [hint] at h
          cases hrec : rowsLoop ci pi ri ai rest with
          | error e =>
            simp only [hrec] at h
            exact absurd h (by simp)
          | ok vs' =>
            simp only [hrec, Except.ok.injEq] at h
            obtain ⟨ih1, ih2⟩ := ih vs' hrec
            subst h
            refine ⟨?_, ?_⟩
            · intro r hr hne
              rcases List.mem_cons.mp hr with hr | hr
              · subst hr
                exact ⟨n, hint⟩
              · exact ih1 r hr hne
            · rw [List.filter_cons, if_pos (decide_eq_true hempty)]
              rw [List.map_cons, ← ih2]
              congr 1
              simp only [rowVariant, hint, Option.getD_some]

/-- Claim C7. The row loop never accepts a non-empty data row whose `pos`
cell does not parse as an integer (so `parseVariantCSV` fails on every
input reaching such a row), accepted rows yield variants whose `pos` is
exactly the `parseInt` value of that cell, every successful parse goes
through the row loop, and the concrete input with `pos = "abc"` is
rejected. -/
theorem parseVariantCSV_spec :
    (∀ ci pi ri ai rows vs, rowsLoop ci pi ri ai rows = .ok vs →
      (∀ raw ∈ rows, (trimLine raw).length ≠ 0 →
        ∃ n, parseIntJS (((splitOnChar ',' (trimLine raw)).map trimLine).getD pi [])
          = some n) ∧
      vs = (rows.filter fun raw => decide ((trimLine raw).length ≠ 0)).map
        (rowVariant ci pi ri ai)) ∧
    (∀ text vs, parseVariantCSV text = .ok vs →
      ∃ ci pi ri ai, headerIdxs ((csvLines text).headD []) = some (ci, pi, ri, ai) ∧
        rowsLoop ci pi ri ai ((csvLines text).drop 1) = .ok vs) ∧
    ((parseVariantCSV "chrom,pos,ref,alt\nchr1,abc,A,G".toList).isOk = false) := by
  refine ⟨fun ci pi ri ai rows vs h => rowsLoop_spec ci pi ri ai rows vs h, ?_, rfl⟩
  intro text vs h
  unfold parseVariantCSV at h
  by_cases hlen : (csvLines text).length < 2
  · rw [if_pos hlen] at h
    exact absurd h (by simp)
  · rw [if_neg hlen] at h
    cases hidx : headerIdxs ((csvLines text).headD []) with
    | none =>
      simp only [hidx] at h
      exact absurd h (by simp)
    | some idxs =>
      obtain ⟨ci, pi, ri, ai⟩ := idxs
      simp only [hidx] at h
      cases hrows : rowsLoop ci pi ri ai ((csvLines text).drop 1) with
      | error e =>
        simp only [hrows] at h
        exact absurd h (by simp)
      | ok variants =>
        simp only [hrows] at h
        by_cases hv0 : variants.length = 0
        · rw [if_pos hv0] at h
          exact absurd h (by simp)
        · rw [if_neg hv0] at h
          cases h
          exact ⟨ci, pi, ri, ai, rfl, hrows⟩

/-- Witness for `parseVariantCSV_spec` at a concrete well-formed CSV. -/
theorem parseVariantCSV_spec_witness :
    ∃ ci pi ri ai,
      headerIdxs ((csvLines "chrom,pos,ref,alt\nchr1,100,A,G".toList).headD [])
        = some (ci, pi, ri, ai) ∧
      rowsLoop ci pi ri ai
          ((csvLines "chrom,pos,ref,alt\nchr1,100,A,G".toList).drop 1)
        = .ok [⟨"chr1".toList, 100, ['A'], ['G']⟩] :=
  parseVariantCSV_spec.2.1 "chrom,pos,ref,alt\nchr1,100,A,G".toList
    [⟨"chr1".toList, 100, ['A'], ['G']⟩] rfl

/-- Witness for `findMotif_spec` at the concrete `"AAA"`/`"AA"` input. -/
theorem findMotif_spec_witness :
    "AAA".toList ≠ [] ∧ "AA".toList ≠ [] ∧
    findMotif "AAA".toList "AA".toList
      = ((List.range ("AAA".toList).length).filter
          (fun i => ("AA".toList.map Char.toUpper).isPrefixOf
            (("AAA".toList.map Char.toUpper).drop i))).map
          (fun i => { position := i + 1,
                      context := ("AAA".toList.drop (i - 10)).take
                        (min "AAA".toList.length (i + "AA".toList.length + 10)
                          - (i - 10)) }) :=
  ⟨by decide, by decide,
    findMotif_spec.1 "AAA".toList "AA".toList (by decide) (by decide)⟩
